import Mathlib

/-!
Verification of the degree-score algorithm (`src/degree_score_algorithm.py`).

The Python module builds a random simple undirected graph as an adjacency
dictionary `{node : set of neighbours}` and propagates a per-vertex score with
one degree-normalised diffusion step.  The embedding below follows the source
line by line:

* a `Graph` is the adjacency dictionary: the number of keys `n` together with
  the neighbour set of every vertex id (ids `≥ n` are mapped to the empty set,
  matching a dictionary whose key set is exactly `range n`);
* Python `float` scores become `ℚ` (the program only ever performs exact
  additions and divisions on them);
* `random.shuffle(possible_edges)` is modelled by passing the shuffled list
  explicitly: any permutation of `possible_edges` may be supplied;
* a `raise ValueError` / rejected interactive input becomes `Except.error`
  with the error taxonomy named in the design document.
-/

/-- Error taxonomy of the program: `InvalidArgument` for the two `ValueError`
raises of `generate_random_graph`, and the three rejection messages of the
edge-addition validation loop. -/
inductive GraphError where
  | InvalidArgument
  | OutOfRange
  | DuplicateVertex
  | EdgeExists
deriving DecidableEq, Repr

/-- Adjacency-dictionary graph: `n` keys `0, …, n-1`, each mapped to its set of
neighbours.  `adj i` for `i ≥ n` plays no role and is `∅` in every graph the
program constructs. -/
structure Graph where
  n : Nat
  adj : Nat → Finset Nat

/-- Embeds line 14, `graph = {i: set() for i in range(n)}`. -/
def freshGraph (n : Nat) : Graph :=
  ⟨n, fun _ => ∅⟩

/-- Embeds the unchecked mutation `graph[u].add(v); graph[v].add(u)`
(lines 25–26 and 98–99). -/
def addEdgeRaw (g : Graph) (u v : Nat) : Graph :=
  ⟨g.n, fun k =>
    if k = u then insert v (g.adj k)
    else if k = v then insert u (g.adj k)
    else g.adj k⟩

/-- Embeds lines 16–20: `for i in range(n): for j in range(i+1, n):
possible_edges.append((i, j))`, guarded by `if n > 1`. -/
def possible_edges (n : Nat) : List (Nat × Nat) :=
  if n > 1 then
    (List.range n).flatMap (fun i =>
      (List.range' (i + 1) (n - (i + 1))).map (fun j => (i, j)))
  else []

/-- Folds the first edges of the shuffled list into the fresh dictionary
(lines 24–26). -/
def buildGraph (nn : Nat) (L : List (Nat × Nat)) : Graph :=
  L.foldl (fun g p => addEdgeRaw g p.1 p.2) (freshGraph nn)

/-- Embeds `generate_random_graph` (lines 3–28).  Python integers are `Int`;
the outcome of `random.shuffle(possible_edges)` is passed in as `shuffled`.
Python `//` is floor division, which on the positive divisor `2` agrees with
the Euclidean division `Int` uses for `/`. -/
def generate_random_graph (n m : Int) (shuffled : List (Nat × Nat)) :
    Except GraphError Graph :=
  if n < 0 ∨ m < 0 then .error .InvalidArgument
  else if m > n * (n - 1) / 2 then .error .InvalidArgument
  else .ok (buildGraph n.toNat (shuffled.take m.toNat))

/-- Embeds line 44, `degrees = {node: len(neighbors) for node, neighbors in
graph.items()}`. -/
def Graph.degree (g : Graph) (j : Nat) : Nat :=
  (g.adj j).card

/-- Embeds `compute_next_scores` (lines 32–51).  The accumulation
`for j in graph[i]: if degrees[j] > 0: y[i] += x[j] / degrees[j]` over the
Python set `graph[i]` is the corresponding `Finset` sum; `x = list(current_scores)`
is a copy, so reading `x[j]` is reading `current_scores[j]`. -/
def compute_next_scores (g : Graph) (current_scores : Option (List ℚ)) :
    List ℚ :=
  let x : List ℚ :=
    match current_scores with
    | none => List.replicate g.n 1
    | some cs => cs
  (List.range g.n).map (fun i =>
    ∑ j ∈ g.adj i, if g.degree j > 0 then x.getD j 0 / (g.degree j : ℚ) else 0)

/-- Variant of `compute_next_scores` without the `degrees[j] > 0` guard, used
to state that the guard is redundant on symmetric graphs. -/
def compute_next_scores_unguarded (g : Graph) (current_scores : Option (List ℚ)) :
    List ℚ :=
  let x : List ℚ :=
    match current_scores with
    | none => List.replicate g.n 1
    | some cs => cs
  (List.range g.n).map (fun i =>
    ∑ j ∈ g.adj i, x.getD j 0 / (g.degree j : ℚ))

/-- Embeds the validation and mutation core of `handle_user_edge_addition`
(lines 87–99): the three rejected cases become errors, the accepted case
performs `graph[i].add(j); graph[j].add(i)`. -/
def addEdge (g : Graph) (i j : Int) : Except GraphError Graph :=
  if ¬ (0 ≤ i ∧ i < (g.n : Int) ∧ 0 ≤ j ∧ j < (g.n : Int)) then
    .error .OutOfRange
  else if i = j then .error .DuplicateVertex
  else if j.toNat ∈ g.adj i.toNat then .error .EdgeExists
  else .ok (addEdgeRaw g i.toNat j.toNat)

/-- Symmetry invariant: `j ∈ neighbors(i) ⟺ i ∈ neighbors(j)`. -/
def Graph.Symm (g : Graph) : Prop :=
  ∀ i j, j ∈ g.adj i ↔ i ∈ g.adj j

/-- No-self-loop invariant: `i ∉ neighbors(i)`. -/
def Graph.NoLoops (g : Graph) : Prop :=
  ∀ i, i ∉ g.adj i

/-- Vertex-set invariant: every adjacency fact involves only ids in
`{0, …, n-1}` (so keys `≥ n` carry the empty set). -/
def Graph.Bounded (g : Graph) : Prop :=
  ∀ i j, j ∈ g.adj i → i < g.n ∧ j < g.n

/-- Undirected edge set: ordered representatives `(i, j)` with `i < j`. -/
def Graph.edges (g : Graph) : Finset (Nat × Nat) :=
  (Finset.range g.n ×ˢ Finset.range g.n).filter
    (fun p => p.1 < p.2 ∧ p.2 ∈ g.adj p.1)

/-- Number of undirected edges of a graph. -/
def Graph.edgeCount (g : Graph) : Nat :=
  g.edges.card

/-- Concrete instance: `n = 2` with the single edge `{0, 1}`. -/
def pathGraph2 : Graph :=
  ⟨2, fun k => if k = 0 then {1} else if k = 1 then {0} else ∅⟩

/-- Concrete instance: complete graph on `n = 3` vertices. -/
def completeGraph3 : Graph :=
  ⟨3, fun k =>
    if k = 0 then {1, 2}
    else if k = 1 then {0, 2}
    else if k = 2 then {0, 1}
    else ∅⟩

/-- C3: `generate(n, m)` fails with `InvalidArgument` exactly when `n < 0`,
`m < 0`, or `m > n·(n-1)/2`; in every other case it returns a graph. -/
theorem generate_error_iff (n m : Int) (shuffled : List (Nat × Nat)) :
    (generate_random_graph n m shuffled = .error .InvalidArgument ↔
      (n < 0 ∨ m < 0 ∨ m > n * (n - 1) / 2)) ∧
    (¬ (n < 0 ∨ m < 0 ∨ m > n * (n - 1) / 2) →
      ∃ g, generate_random_graph n m shuffled = .ok g) := by
  unfold generate_random_graph
  by_cases h1 : n < 0 ∨ m < 0
  · constructor
    · simp only [if_pos h1]
      tauto
    · intro h
      exact absurd h1 (by tauto)
  · by_cases h2 : m > n * (n - 1) / 2
    · constructor
      · simp only [if_neg h1, if_pos h2]
        tauto
      · intro h
        exact absurd h2 (by tauto)
    · constructor
      · simp only [if_neg h1, if_neg h2]
        constructor
        · intro h
          exact absurd h (by simp)
        · intro h
          tauto
      · intro _
        refine ⟨buildGraph n.toNat (shuffled.take m.toNat), ?_⟩
        simp only [if_neg h1, if_neg h2]

/-- C4: `addEdge(graph, i, j)` fails with `OutOfRange` exactly when `i` or `j`
is outside `[0, n-1]`, with `DuplicateVertex` exactly when in range and
`i = j`, with `EdgeExists` exactly when in range, `i ≠ j` and the edge is
already present, and succeeds exactly when none of these conditions hold. -/
theorem addEdge_error_iff (g : Graph) (i j : Int) :
    (addEdge g i j = .error .OutOfRange ↔
      ¬ (0 ≤ i ∧ i < (g.n : Int) ∧ 0 ≤ j ∧ j < (g.n : Int))) ∧
    (addEdge g i j = .error .DuplicateVertex ↔
      ((0 ≤ i ∧ i < (g.n : Int) ∧ 0 ≤ j ∧ j < (g.n : Int)) ∧ i = j)) ∧
    (addEdge g i j = .error .EdgeExists ↔
      ((0 ≤ i ∧ i < (g.n : Int) ∧ 0 ≤ j ∧ j < (g.n : Int)) ∧ i ≠ j ∧
        j.toNat ∈ g.adj i.toNat)) ∧
    ((∃ g', addEdge g i j = .ok g') ↔
      ((0 ≤ i ∧ i < (g.n : Int) ∧ 0 ≤ j ∧ j < (g.n : Int)) ∧ i ≠ j ∧
        j.toNat ∉ g.adj i.toNat)) := by
  unfold addEdge
  by_cases h1 : 0 ≤ i ∧ i < (g.n : Int) ∧ 0 ≤ j ∧ j < (g.n : Int)
  · by_cases h2 : i = j
    · simp [h1, h2]
    · by_cases h3 : j.toNat ∈ g.adj i.toNat <;> simp [h1, h2, h3]
  · simp [h1]

/-- C7: on a graph all of whose neighbour sets are empty, `update` returns the
all-zero vector of length `n`, for every prior score vector of matching
length. -/
theorem isolated_graph_zero_scores (g : Graph) (x : List ℚ)
    (hiso : ∀ i, g.adj i = ∅) (hx : x.length = g.n) :
    compute_next_scores g (some x) = List.replicate g.n 0 := by
  simp only [compute_next_scores]
  apply List.ext_getElem
  · simp
  · intro i h1 h2
    simp only [List.getElem_map, List.getElem_range, List.getElem_replicate]
    rw [hiso, Finset.sum_empty]

/-- Witness for C7 at the concrete graph `freshGraph 2` and prior `[5, 7]`. -/
theorem isolated_graph_zero_scores_witness :
    (∀ i, (freshGraph 2).adj i = ∅) ∧ ([(5 : ℚ), 7].length = (freshGraph 2).n) ∧
    compute_next_scores (freshGraph 2) (some [5, 7]) = List.replicate (freshGraph 2).n 0 :=
  ⟨fun _ => rfl, rfl,
    isolated_graph_zero_scores (freshGraph 2) [5, 7] (fun _ => rfl) rfl⟩

/-- C8: the all-ones score vector is a fixed point of `update` on the
single-edge graph with `n = 2` and on the complete graph with `n = 3`. -/
theorem all_ones_fixed_point_instances :
    compute_next_scores pathGraph2 (some [1, 1]) = [1, 1] ∧
    compute_next_scores completeGraph3 (some [1, 1, 1]) = [1, 1, 1] := by
  constructor <;>
    · simp [compute_next_scores, pathGraph2, completeGraph3, Graph.degree,
        List.range_succ, Finset.sum_insert, Finset.sum_singleton, List.getD]
      try norm_num

/-- Membership in the adjacency map after one unchecked edge insertion. -/
theorem mem_addEdgeRaw_adj (g : Graph) (u v : Nat) (huv : u ≠ v) (i j : Nat) :
    j ∈ (addEdgeRaw g u v).adj i ↔
      j ∈ g.adj i ∨ (i = u ∧ j = v) ∨ (i = v ∧ j = u) := by
  unfold addEdgeRaw
  dsimp only
  by_cases h1 : i = u <;> by_cases h2 : i = v <;>
    simp_all [Finset.mem_insert] <;> tauto

/-- Folding edge insertions does not change the key count. -/
theorem foldl_addEdgeRaw_n (L : List (Nat × Nat)) :
    ∀ g : Graph, (L.foldl (fun g p => addEdgeRaw g p.1 p.2) g).n = g.n := by
  induction L with
  | nil => intro g; rfl
  | cons p L ih =>
    intro g
    rw [List.foldl_cons, ih]
    rfl

/-- Membership in the adjacency map after folding a list of ordered pairs. -/
theorem mem_foldl_addEdgeRaw (L : List (Nat × Nat)) :
    (∀ p ∈ L, p.1 < p.2) → ∀ (g : Graph) (i j : Nat),
      (j ∈ (L.foldl (fun g p => addEdgeRaw g p.1 p.2) g).adj i ↔
        j ∈ g.adj i ∨ (i, j) ∈ L ∨ (j, i) ∈ L) := by
  induction L with
  | nil =>
    intro _ g i j
    simp
  | cons p L ih =>
    intro hL g i j
    have hp : p.1 < p.2 := hL p (List.mem_cons_self p L)
    have hL' : ∀ q ∈ L, q.1 < q.2 := fun q hq => hL q (List.mem_cons_of_mem p hq)
    rw [List.foldl_cons, ih hL' (addEdgeRaw g p.1 p.2) i j,
      mem_addEdgeRaw_adj g p.1 p.2 (Nat.ne_of_lt hp) i j]
    simp only [List.mem_cons, Prod.ext_iff]
    tauto

/-- Key count of a built graph. -/
theorem buildGraph_n (nn : Nat) (L : List (Nat × Nat)) : (buildGraph nn L).n = nn :=
  foldl_addEdgeRaw_n L (freshGraph nn)

/-- Adjacency of a built graph: exactly the pairs of the list, in both
orientations. -/
theorem mem_buildGraph_adj (nn : Nat) (L : List (Nat × Nat))
    (hL : ∀ p ∈ L, p.1 < p.2) (i j : Nat) :
    j ∈ (buildGraph nn L).adj i ↔ (i, j) ∈ L ∨ (j, i) ∈ L := by
  unfold buildGraph
  rw [mem_foldl_addEdgeRaw L hL]
  simp [freshGraph]

/-- A built graph is symmetric. -/
theorem buildGraph_symm (nn : Nat) (L : List (Nat × Nat))
    (hL : ∀ p ∈ L, p.1 < p.2) : (buildGraph nn L).Symm := by
  intro i j
  rw [mem_buildGraph_adj nn L hL, mem_buildGraph_adj nn L hL]
  tauto

/-- A built graph has no self-loops. -/
theorem buildGraph_noLoops (nn : Nat) (L : List (Nat × Nat))
    (hL : ∀ p ∈ L, p.1 < p.2) : (buildGraph nn L).NoLoops := by
  intro i hmem
  rw [mem_buildGraph_adj nn L hL] at hmem
  rcases hmem with h | h <;> exact absurd (hL _ h) (lt_irrefl i)

/-- A built graph mentions only ids below `nn`. -/
theorem buildGraph_bounded (nn : Nat) (L : List (Nat × Nat))
    (hL : ∀ p ∈ L, p.1 < p.2 ∧ p.2 < nn) : (buildGraph nn L).Bounded := by
  intro i j hmem
  rw [buildGraph_n]
  rw [mem_buildGraph_adj nn L (fun p hp => (hL p hp).1)] at hmem
  rcases hmem with h | h
  · have := hL _ h
    omega
  · have := hL _ h
    omega

/-- Edge set of a built graph. -/
theorem buildGraph_edges (nn : Nat) (L : List (Nat × Nat))
    (hL : ∀ p ∈ L, p.1 < p.2 ∧ p.2 < nn) :
    (buildGraph nn L).edges = L.toFinset := by
  ext p
  obtain ⟨a, b⟩ := p
  simp only [Graph.edges, Finset.mem_filter, Finset.mem_product, Finset.mem_range,
    buildGraph_n, List.mem_toFinset,
    mem_buildGraph_adj nn L (fun q hq => (hL q hq).1)]
  constructor
  · rintro ⟨⟨ha, hb⟩, hab, h | h⟩
    · exact h
    · have := (hL _ h).1
      simp only at this hab
      omega
  · intro h
    have := hL _ h
    simp only at this ⊢
    exact ⟨⟨by omega, this.2⟩, this.1, Or.inl h⟩

/-- Edge count of a built graph with distinct ordered pairs. -/
theorem buildGraph_edgeCount (nn : Nat) (L : List (Nat × Nat))
    (hL : ∀ p ∈ L, p.1 < p.2 ∧ p.2 < nn) (hnd : L.Nodup) :
    (buildGraph nn L).edgeCount = L.length := by
  unfold Graph.edgeCount
  rw [buildGraph_edges nn L hL, List.toFinset_card_of_nodup hnd]

/-- Characterisation of the enumerated pair list: all ordered pairs below `n`. -/
theorem mem_possible_edges (n : Nat) (p : Nat × Nat) :
    p ∈ possible_edges n ↔ p.1 < p.2 ∧ p.2 < n := by
  obtain ⟨a, b⟩ := p
  unfold possible_edges
  by_cases h : n > 1
  · rw [if_pos h]
    simp only [List.mem_flatMap, List.mem_range, List.mem_map, List.mem_range'_1,
      Prod.mk.injEq]
    constructor
    · rintro ⟨i, hi, j, ⟨hj1, hj2⟩, rfl, rfl⟩
      omega
    · rintro ⟨hab, hbn⟩
      exact ⟨a, by omega, b, ⟨by omega, by omega⟩, rfl, rfl⟩
  · rw [if_neg h]
    simp only [List.not_mem_nil, false_iff]
    simp only [not_and]
    intro hab
    omega

/-- The enumerated pair list has no duplicates. -/
theorem possible_edges_nodup (n : Nat) : (possible_edges n).Nodup := by
  unfold possible_edges
  by_cases h : n > 1
  · rw [if_pos h, List.nodup_flatMap]
    constructor
    · intro i _
      exact (List.nodup_range' _ _).map (fun x y hxy => congrArg Prod.snd hxy)
    · refine (List.pairwise_lt_range n).imp ?_
      intro a b hab x hxa hxb
      simp only [List.mem_map] at hxa hxb
      obtain ⟨j1, _, rfl⟩ := hxa
      obtain ⟨j2, _, h2⟩ := hxb
      exact (Nat.ne_of_lt hab) (congrArg Prod.fst h2).symm
  · rw [if_neg h]
    exact List.nodup_nil

/-- The enumerated pair list has exactly `n·(n-1)/2` entries. -/
theorem possible_edges_length (n : Nat) :
    (possible_edges n).length = n * (n - 1) / 2 := by
  unfold possible_edges
  by_cases h : n > 1
  · rw [if_pos h, List.length_flatMap]
    have h1 : List.map
        (List.length ∘ fun i => (List.range' (i + 1) (n - (i + 1))).map (fun j => (i, j)))
        (List.range n) = List.map (fun i => n - (i + 1)) (List.range n) := by
      apply List.map_congr_left
      intro i _
      simp [List.length_range']
    rw [h1]
    have h2 : (List.map (fun i => n - (i + 1)) (List.range n)).sum =
        ∑ i ∈ Finset.range n, (n - (i + 1)) := rfl
    rw [h2]
    have h3 : ∀ i ∈ Finset.range n, n - (i + 1) = n - 1 - i := by
      intro i _
      omega
    rw [Finset.sum_congr rfl h3, Finset.sum_range_reflect (fun i => i) n]
    have h4 := Finset.sum_range_id_mul_two n
    omega
  · rw [if_neg h]
    have : n * (n - 1) = 0 := by
      rcases Nat.lt_or_ge n 2 with h2 | h2
      · interval_cases n <;> rfl
      · omega
    simp [this]

/-- Bridging the maximal edge count between `Int` and `Nat` arithmetic. -/
theorem int_max_edges (nt : Nat) :
    (nt : Int) * ((nt : Int) - 1) / 2 = ((nt * (nt - 1) / 2 : Nat) : Int) := by
  cases nt with
  | zero => rfl
  | succ k =>
    have h1 : ((k + 1 : Nat) : Int) - 1 = (k : Int) := by
      push_cast
      ring
    rw [h1, Nat.add_sub_cancel]
    rfl

/-- C1: for every valid input pair and every outcome of the shuffle,
`generate(n, m)` returns a graph whose key set is exactly `{0, …, n-1}`, with
exactly `m` undirected edges, no self-loops, and symmetric adjacency. -/
theorem generate_valid_graph (n m : Int) (shuffled : List (Nat × Nat))
    (hn : 0 ≤ n) (hm : 0 ≤ m) (hmax : m ≤ n * (n - 1) / 2)
    (hperm : shuffled.Perm (possible_edges n.toNat)) :
    ∃ g : Graph, generate_random_graph n m shuffled = .ok g ∧
      g.n = n.toNat ∧ g.Bounded ∧ g.NoLoops ∧ g.Symm ∧ g.edgeCount = m.toNat := by
  have hL1 : ∀ p ∈ shuffled.take m.toNat, p.1 < p.2 ∧ p.2 < n.toNat := by
    intro p hp
    exact (mem_possible_edges n.toNat p).mp
      (hperm.mem_iff.mp (List.mem_of_mem_take hp))
  have hnd : (shuffled.take m.toNat).Nodup :=
    (List.take_sublist _ _).nodup (hperm.nodup_iff.mpr (possible_edges_nodup n.toNat))
  have hlen : (shuffled.take m.toNat).length = m.toNat := by
    have hcast : n = ((n.toNat : Nat) : Int) := (Int.toNat_of_nonneg hn).symm
    rw [hcast, int_max_edges] at hmax
    rw [List.length_take, hperm.length_eq, possible_edges_length]
    generalize hK : n.toNat * (n.toNat - 1) / 2 = K at hmax ⊢
    omega
  refine ⟨buildGraph n.toNat (shuffled.take m.toNat), ?_, ?_, ?_, ?_, ?_, ?_⟩
  · unfold generate_random_graph
    rw [if_neg (by omega), if_neg (not_lt.mpr hmax)]
  · exact buildGraph_n _ _
  · exact buildGraph_bounded _ _ hL1
  · exact buildGraph_noLoops _ _ (fun p hp => (hL1 p hp).1)
  · exact buildGraph_symm _ _ (fun p hp => (hL1 p hp).1)
  · rw [buildGraph_edgeCount _ _ hL1 hnd, hlen]

/-- Witness for C1 at `n = 3`, `m = 2`, with the identity shuffle. -/
theorem generate_valid_graph_witness :
    (0 : Int) ≤ 3 ∧ (0 : Int) ≤ 2 ∧ (2 : Int) ≤ 3 * (3 - 1) / 2 ∧
    (possible_edges (3 : Int).toNat).Perm (possible_edges (3 : Int).toNat) ∧
    ∃ g : Graph, generate_random_graph 3 2 (possible_edges (3 : Int).toNat) = .ok g ∧
      g.n = (3 : Int).toNat ∧ g.Bounded ∧ g.NoLoops ∧ g.Symm ∧
      g.edgeCount = (2 : Int).toNat :=
  ⟨by decide, by decide, by decide, List.Perm.refl _,
    generate_valid_graph 3 2 _ (by decide) (by decide) (by decide) (List.Perm.refl _)⟩

/-- C2: entry `i` of `update(graph, priorScores)` is the sum over neighbours
`j` of positive degree of `priorScores[j] / degree(j)`; the output has length
`n`; an absent prior behaves as the all-ones prior of length `n`. -/
theorem compute_next_scores_entries (g : Graph) (x : List ℚ) (i : Nat)
    (hb : g.Bounded) (hi : i < g.n) (hx : x.length = g.n) :
    (compute_next_scores g (some x)).length = g.n ∧
    (compute_next_scores g (some x)).getD i 0 =
      (∑ j ∈ (g.adj i).filter (fun j => 0 < g.degree j),
        x.getD j 0 / (g.degree j : ℚ)) ∧
    compute_next_scores g none = compute_next_scores g (some (List.replicate g.n 1)) := by
  refine ⟨by simp [compute_next_scores], ?_, rfl⟩
  simp only [compute_next_scores]
  rw [List.getD_eq_getElem _ _ (by simpa using hi)]
  rw [List.getElem_map, List.getElem_range]
  rw [Finset.sum_filter]

/-- Symmetry of the concrete two-vertex instance. -/
theorem pathGraph2_symm : pathGraph2.Symm := by
  intro i j
  by_cases h0 : i = 0 <;> by_cases h1 : i = 1 <;>
    by_cases k0 : j = 0 <;> by_cases k1 : j = 1 <;>
      simp_all [pathGraph2]

/-- Boundedness of the concrete two-vertex instance. -/
theorem pathGraph2_bounded : pathGraph2.Bounded := by
  intro i j hm
  by_cases h0 : i = 0 <;> by_cases h1 : i = 1 <;>
    simp_all [pathGraph2]

/-- Loop-freeness of the concrete two-vertex instance. -/
theorem pathGraph2_noLoops : pathGraph2.NoLoops := by
  intro i
  by_cases h0 : i = 0 <;> by_cases h1 : i = 1 <;>
    simp_all [pathGraph2]

/-- Witness for C2 on the two-vertex instance at entry 0 with prior `[2, 4]`. -/
theorem compute_next_scores_entries_witness :
    pathGraph2.Bounded ∧ 0 < pathGraph2.n ∧ [(2 : ℚ), 4].length = pathGraph2.n ∧
    ((compute_next_scores pathGraph2 (some [2, 4])).length = pathGraph2.n ∧
     (compute_next_scores pathGraph2 (some [2, 4])).getD 0 0 =
       (∑ j ∈ (pathGraph2.adj 0).filter (fun j => 0 < pathGraph2.degree j),
         [(2 : ℚ), 4].getD j 0 / (pathGraph2.degree j : ℚ)) ∧
     compute_next_scores pathGraph2 none =
       compute_next_scores pathGraph2 (some (List.replicate pathGraph2.n 1))) :=
  ⟨pathGraph2_bounded, Nat.zero_lt_two, rfl,
    compute_next_scores_entries pathGraph2 [2, 4] 0 pathGraph2_bounded
      Nat.zero_lt_two rfl⟩

/-- Edge set after one unchecked insertion of a fresh edge. -/
theorem addEdgeRaw_edges (g : Graph) (u v : Nat) (hu : u < g.n) (hv : v < g.n)
    (huv : u ≠ v) :
    (addEdgeRaw g u v).edges =
      insert (if u < v then (u, v) else (v, u)) g.edges := by
  have hn : (addEdgeRaw g u v).n = g.n := rfl
  ext p
  obtain ⟨a, b⟩ := p
  simp only [Graph.edges, Finset.mem_filter, Finset.mem_product, Finset.mem_range,
    Finset.mem_insert, hn, mem_addEdgeRaw_adj g u v huv, Prod.mk.injEq]
  by_cases hcase : u < v
  · rw [if_pos hcase]
    simp only [Prod.mk.injEq]
    constructor
    · rintro ⟨⟨ha, hb⟩, hab, hmem | ⟨rfl, rfl⟩ | ⟨rfl, rfl⟩⟩
      · exact Or.inr ⟨⟨ha, hb⟩, hab, hmem⟩
      · exact Or.inl ⟨rfl, rfl⟩
      · omega
    · rintro (⟨rfl, rfl⟩ | ⟨⟨ha, hb⟩, hab, hmem⟩)
      · exact ⟨⟨hu, hv⟩, hcase, Or.inr (Or.inl ⟨rfl, rfl⟩)⟩
      · exact ⟨⟨ha, hb⟩, hab, Or.inl hmem⟩
  · rw [if_neg hcase]
    have hvu : v < u := by omega
    simp only [Prod.mk.injEq]
    constructor
    · rintro ⟨⟨ha, hb⟩, hab, hmem | ⟨rfl, rfl⟩ | ⟨rfl, rfl⟩⟩
      · exact Or.inr ⟨⟨ha, hb⟩, hab, hmem⟩
      · omega
      · exact Or.inl ⟨rfl, rfl⟩
    · rintro (⟨rfl, rfl⟩ | ⟨⟨ha, hb⟩, hab, hmem⟩)
      · exact ⟨⟨hv, hu⟩, hvu, Or.inr (Or.inr ⟨rfl, rfl⟩)⟩
      · exact ⟨⟨ha, hb⟩, hab, Or.inl hmem⟩

/-- Edge count after one unchecked insertion of a fresh edge into a symmetric
graph. -/
theorem addEdgeRaw_edgeCount (g : Graph) (u v : Nat) (hu : u < g.n) (hv : v < g.n)
    (huv : u ≠ v) (hnew : v ∉ g.adj u) (hsymm : g.Symm) :
    (addEdgeRaw g u v).edgeCount = g.edgeCount + 1 := by
  unfold Graph.edgeCount
  rw [addEdgeRaw_edges g u v hu hv huv]
  rw [Finset.card_insert_of_not_mem]
  intro hmem
  by_cases hcase : u < v
  · rw [if_pos hcase] at hmem
    simp only [Graph.edges, Finset.mem_filter] at hmem
    exact hnew hmem.2.2
  · rw [if_neg hcase] at hmem
    simp only [Graph.edges, Finset.mem_filter] at hmem
    exact hnew ((hsymm v u).mp hmem.2.2)

/-- C5: a successful `addEdge(graph, i, j)` makes `i` and `j` mutual
neighbours, raises the edge count by exactly one, leaves every other
neighbour set unchanged, and preserves symmetry and loop-freeness. -/
theorem addEdge_success_effects (g g' : Graph) (i j : Int)
    (hsymm : g.Symm) (hok : addEdge g i j = .ok g') :
    j.toNat ∈ g'.adj i.toNat ∧ i.toNat ∈ g'.adj j.toNat ∧
    g'.edgeCount = g.edgeCount + 1 ∧
    (∀ k, k ≠ i.toNat → k ≠ j.toNat → g'.adj k = g.adj k) ∧
    g'.Symm ∧ (g.NoLoops → g'.NoLoops) := by
  unfold addEdge at hok
  by_cases h1 : 0 ≤ i ∧ i < (g.n : Int) ∧ 0 ≤ j ∧ j < (g.n : Int)
  · rw [if_neg (not_not_intro h1)] at hok
    by_cases h2 : i = j
    · rw [if_pos h2] at hok
      exact absurd hok (by simp)
    · rw [if_neg h2] at hok
      by_cases h3 : j.toNat ∈ g.adj i.toNat
      · rw [if_pos h3] at hok
        exact absurd hok (by simp)
      · rw [if_neg h3] at hok
        simp only [Except.ok.injEq] at hok
        subst hok
        obtain ⟨hi0, hin, hj0, hjn⟩ := h1
        have huv : i.toNat ≠ j.toNat := by omega
        have hu : i.toNat < g.n := by omega
        have hv : j.toNat < g.n := by omega
        refine ⟨?_, ?_, ?_, ?_, ?_, ?_⟩
        · exact (mem_addEdgeRaw_adj g i.toNat j.toNat huv i.toNat j.toNat).mpr
            (Or.inr (Or.inl ⟨rfl, rfl⟩))
        · exact (mem_addEdgeRaw_adj g i.toNat j.toNat huv j.toNat i.toNat).mpr
            (Or.inr (Or.inr ⟨rfl, rfl⟩))
        · exact addEdgeRaw_edgeCount g i.toNat j.toNat hu hv huv h3 hsymm
        · intro k hk1 hk2
          simp [addEdgeRaw, hk1, hk2]
        · intro a b
          rw [mem_addEdgeRaw_adj g i.toNat j.toNat huv a b,
            mem_addEdgeRaw_adj g i.toNat j.toNat huv b a]
          have := hsymm a b
          tauto
        · intro hnl a ha
          rw [mem_addEdgeRaw_adj g i.toNat j.toNat huv a a] at ha
          rcases ha with h | ⟨rfl, h⟩ | ⟨rfl, h⟩
          · exact hnl a h
          · exact huv h
          · exact huv h.symm
  · rw [if_pos h1] at hok
    exact absurd hok (by simp)

/-- Witness for C5: adding edge (0, 1) to the fresh two-vertex graph. -/
theorem addEdge_success_effects_witness :
    (freshGraph 2).Symm ∧
    addEdge (freshGraph 2) 0 1 = .ok (addEdgeRaw (freshGraph 2) 0 1) ∧
    ((1 : Int).toNat ∈ (addEdgeRaw (freshGraph 2) 0 1).adj (0 : Int).toNat ∧
     (0 : Int).toNat ∈ (addEdgeRaw (freshGraph 2) 0 1).adj (1 : Int).toNat ∧
     (addEdgeRaw (freshGraph 2) 0 1).edgeCount = (freshGraph 2).edgeCount + 1 ∧
     (∀ k, k ≠ (0 : Int).toNat → k ≠ (1 : Int).toNat →
       (addEdgeRaw (freshGraph 2) 0 1).adj k = (freshGraph 2).adj k) ∧
     (addEdgeRaw (freshGraph 2) 0 1).Symm ∧
     ((freshGraph 2).NoLoops → (addEdgeRaw (freshGraph 2) 0 1).NoLoops)) := by
  have hs : (freshGraph 2).Symm := by
    intro i j
    simp [freshGraph]
  have hok : addEdge (freshGraph 2) 0 1 = .ok (addEdgeRaw (freshGraph 2) 0 1) := by
    unfold addEdge
    rw [if_neg (by norm_num [freshGraph]), if_neg (by norm_num),
      if_neg (by simp [freshGraph])]
    rfl
  have h := addEdge_success_effects (freshGraph 2) (addEdgeRaw (freshGraph 2) 0 1)
    0 1 hs hok
  exact ⟨hs, hok, by simpa using h⟩

/-- C6: on a symmetric graph every neighbour has positive degree, so the
`degrees[j] > 0` guard always passes and the guarded update equals the
unguarded one. -/
theorem degree_guard_redundant (g : Graph) (hsymm : g.Symm) :
    (∀ i, ∀ j ∈ g.adj i, 0 < g.degree j) ∧
    (∀ p, compute_next_scores g p = compute_next_scores_unguarded g p) := by
  have hdeg : ∀ i, ∀ j ∈ g.adj i, 0 < g.degree j := by
    intro i j hj
    exact Finset.card_pos.mpr ⟨i, (hsymm i j).mp hj⟩
  refine ⟨hdeg, ?_⟩
  intro p
  cases p with
  | none =>
    simp only [compute_next_scores, compute_next_scores_unguarded]
    apply List.map_congr_left
    intro i _
    apply Finset.sum_congr rfl
    intro j hj
    rw [if_pos (hdeg i j hj)]
  | some cs =>
    simp only [compute_next_scores, compute_next_scores_unguarded]
    apply List.map_congr_left
    intro i _
    apply Finset.sum_congr rfl
    intro j hj
    rw [if_pos (hdeg i j hj)]

/-- Witness for C6 on the two-vertex instance. -/
theorem degree_guard_redundant_witness :
    pathGraph2.Symm ∧
    ((∀ i, ∀ j ∈ pathGraph2.adj i, 0 < pathGraph2.degree j) ∧
     (∀ p, compute_next_scores pathGraph2 p =
       compute_next_scores_unguarded pathGraph2 p)) :=
  ⟨pathGraph2_symm, degree_guard_redundant pathGraph2 pathGraph2_symm⟩

/-- C9: on a symmetric loop-free graph, the entries of the updated score
vector sum to the total prior score of the vertices of positive degree. -/
theorem score_conservation (g : Graph) (x : List ℚ)
    (hsymm : g.Symm) (hb : g.Bounded) (hnl : g.NoLoops) (hx : x.length = g.n) :
    (compute_next_scores g (some x)).sum =
      ∑ j ∈ (Finset.range g.n).filter (fun j => 0 < g.degree j), x.getD j 0 := by
  have hsub : ∀ i, g.adj i ⊆ Finset.range g.n := by
    intro i j hj
    exact Finset.mem_range.mpr (hb i j hj).2
  have hlist : (compute_next_scores g (some x)).sum =
      ∑ i ∈ Finset.range g.n, ∑ j ∈ g.adj i,
        (if 0 < g.degree j then x.getD j 0 / (g.degree j : ℚ) else 0) := rfl
  rw [hlist]
  calc
    ∑ i ∈ Finset.range g.n, ∑ j ∈ g.adj i,
        (if 0 < g.degree j then x.getD j 0 / (g.degree j : ℚ) else 0)
        = ∑ i ∈ Finset.range g.n, ∑ j ∈ Finset.range g.n,
            (if j ∈ g.adj i then
              (if 0 < g.degree j then x.getD j 0 / (g.degree j : ℚ) else 0) else 0) := by
          apply Finset.sum_congr rfl
          intro i _
          rw [Finset.sum_ite_mem, Finset.inter_eq_right.mpr (hsub i)]
    _ = ∑ j ∈ Finset.range g.n, ∑ i ∈ Finset.range g.n,
            (if j ∈ g.adj i then
              (if 0 < g.degree j then x.getD j 0 / (g.degree j : ℚ) else 0) else 0) :=
          Finset.sum_comm
    _ = ∑ j ∈ Finset.range g.n,
            (g.adj j).card • (if 0 < g.degree j then x.getD j 0 / (g.degree j : ℚ) else 0) := by
          apply Finset.sum_congr rfl
          intro j _
          have h1 : ∀ i ∈ Finset.range g.n,
              (if j ∈ g.adj i then
                (if 0 < g.degree j then x.getD j 0 / (g.degree j : ℚ) else 0) else 0) =
              (if i ∈ g.adj j then
                (if 0 < g.degree j then x.getD j 0 / (g.degree j : ℚ) else 0) else 0) := by
            intro i _
            rcases Classical.em (j ∈ g.adj i) with h | h
            · rw [if_pos h, if_pos ((hsymm i j).mp h)]
            · rw [if_neg h, if_neg (fun hc => h ((hsymm i j).mpr hc))]
          rw [Finset.sum_congr rfl h1, Finset.sum_ite_mem,
            Finset.inter_eq_right.mpr (hsub j), Finset.sum_const]
    _ = ∑ j ∈ Finset.range g.n, (if 0 < g.degree j then x.getD j 0 else 0) := by
          apply Finset.sum_congr rfl
          intro j _
          by_cases h : 0 < g.degree j
          · rw [if_pos h, if_pos h]
            have hne : (g.degree j : ℚ) ≠ 0 := by
              exact_mod_cast Nat.pos_iff_ne_zero.mp h
            rw [show (g.adj j).card = g.degree j from rfl, nsmul_eq_mul, mul_comm,
              div_mul_cancel₀ _ hne]
          · rw [if_neg h, if_neg h]
            have h0 : (g.adj j).card = 0 := by
              unfold Graph.degree at h
              omega
            rw [h0, zero_smul]
    _ = ∑ j ∈ (Finset.range g.n).filter (fun j => 0 < g.degree j), x.getD j 0 :=
          (Finset.sum_filter _ _).symm

/-- Witness for C9 on the two-vertex instance with prior `[3, 5]`. -/
theorem score_conservation_witness :
    pathGraph2.Symm ∧ pathGraph2.Bounded ∧ pathGraph2.NoLoops ∧
    [(3 : ℚ), 5].length = pathGraph2.n ∧
    (compute_next_scores pathGraph2 (some [3, 5])).sum =
      ∑ j ∈ (Finset.range pathGraph2.n).filter (fun j => 0 < pathGraph2.degree j),
        [(3 : ℚ), 5].getD j 0 :=
  ⟨pathGraph2_symm, pathGraph2_bounded, pathGraph2_noLoops, rfl,
    score_conservation pathGraph2 [3, 5] pathGraph2_symm pathGraph2_bounded
      pathGraph2_noLoops rfl⟩

/-- C10: `update` is a pure function of its two arguments: pointwise-equal
graphs and equal priors yield identical output vectors (the embedding's
inputs are immutable values, so neither call can modify them). -/
theorem compute_next_scores_deterministic (g1 g2 : Graph) (p1 p2 : Option (List ℚ))
    (hn : g1.n = g2.n) (hadj : ∀ i, g1.adj i = g2.adj i) (hp : p1 = p2) :
    compute_next_scores g1 p1 = compute_next_scores g2 p2 := by
  have hg : g1 = g2 := by
    cases g1
    cases g2
    simp only [Graph.mk.injEq]
    exact ⟨hn, funext hadj⟩
  rw [hg, hp]

/-- Witness for C10 on the two-vertex instance. -/
theorem compute_next_scores_deterministic_witness :
    pathGraph2.n = pathGraph2.n ∧ (∀ i, pathGraph2.adj i = pathGraph2.adj i) ∧
    (some [(1 : ℚ), 1] : Option (List ℚ)) = some [(1 : ℚ), 1] ∧
    compute_next_scores pathGraph2 (some [1, 1]) =
      compute_next_scores pathGraph2 (some [1, 1]) :=
  ⟨rfl, fun _ => rfl, rfl,
    compute_next_scores_deterministic pathGraph2 pathGraph2 _ _ rfl (fun _ => rfl) rfl⟩
